import Mathlib

/-!
Verification of the metamagic Blender addon's bone-chain engine.

The Python sources (`blender_addon/metamagic/{constants,properties,ui,utils}.py`)
are shallowly embedded below.  Bones carry a name and an optional parent name;
an armature is the list of its bones; a Blender `Object` carries its type
string, an optional armature datablock, the addon's `jiggle_config` property
group and its custom properties.  The `while` loops of the Python code are
embedded as fuel-indexed recursions (`none` = fuel exhausted, i.e. the loop is
still running); fuel-sufficiency and fuel-monotonicity lemmas recover the
behaviour of the unbounded loops.

Notes on the embedding:
* Blender guarantees bone names are unique within an armature and that parent
  references stay inside the armature; parent links are therefore embedded as
  the parent's name plus a lookup, and the Python object comparison
  `bone.parent == current_bone` becomes a name comparison.
* Python floats are embedded as rationals: the config values are only stored
  and copied, never computed with.
* JSON text is embedded as its parsed structured value (`JValue`).
-/

namespace Metamagic

/-! ## constants.py -/

def JIGGLE_CONFIG_KEY : String := "jiggle_bones_config"

def DEFAULT_STIFFNESS : Rat := 1
def DEFAULT_DRAG : Rat := 2/5
def DEFAULT_GRAVITY : Rat := 0
def DEFAULT_RADIUS : Rat := 1/50

def ERROR_NOT_ARMATURE : String := "Object is not an armature"
def ERROR_START_BONE_EMPTY : String := "Start bone name is empty"
def ERROR_END_BONE_EMPTY : String := "End bone name is empty"

def ERROR_START_BONE_NOT_FOUND (bone : String) : String :=
  "Start bone '" ++ bone ++ "' not found in armature"

def ERROR_END_BONE_NOT_FOUND (bone : String) : String :=
  "End bone '" ++ bone ++ "' not found in armature"

def ERROR_INVALID_CHAIN (start stop : String) : String :=
  "Cannot find chain from '" ++ start ++ "' to '" ++ stop ++ "'"

/-! ## Data model: bones, armatures, objects -/

structure Bone where
  name : String
  parent : Option String
deriving DecidableEq, Repr

structure Armature where
  bones : List Bone
deriving DecidableEq, Repr

/-- `armature.bones[n]`: the bone of the armature carrying name `n`. -/
def Armature.lookup (arm : Armature) (n : String) : Option Bone :=
  arm.bones.find? (fun b => b.name = n)

/-- The names of the armature's bones; `n in armature.bones` is `n ∈ arm.names`. -/
def Armature.names (arm : Armature) : List String :=
  arm.bones.map Bone.name

/-- `current_bone.parent` as the walk sees it: resolve the parent name. -/
def Armature.step (arm : Armature) (b : Bone) : Option Bone :=
  b.parent.bind arm.lookup

/-- `n` applications of `Armature.step` (the `n`-th ancestor). -/
def stepIter (arm : Armature) : Nat → Bone → Option Bone
  | 0, b => some b
  | n + 1, b => (arm.step b).bind (stepIter arm n)

/-- A jiggle chain property group (`JiggleChainProperty`). -/
structure JiggleChain where
  start_bone : String
  end_bone : String
  stiffness : Rat
  drag : Rat
  gravity : Rat
  radius : Rat
  extend_end_bone : Bool
deriving DecidableEq, Repr

/-- The `jiggle_config` property group (`JiggleConfigProperty`). -/
structure JiggleConfig where
  chains : List JiggleChain
  active_chain_index : Int
deriving DecidableEq, Repr

/-- A JSON value: Python `json` data as the import/export code sees it. -/
inductive JValue where
  | jnull
  | jbool (b : Bool)
  | jnum (q : Rat)
  | jstr (s : String)
  | jlist (items : List JValue)
  | jdict (entries : List (String × JValue))

def JValue.isDict : JValue → Bool
  | .jdict _ => true
  | _ => false

/-- A Blender `Object`: its `type`, its datablock (`data`), the registered
`jiggle_config` pointer property, and its custom properties. -/
structure Object where
  type : String
  data : Option Armature
  jiggle_config : Option JiggleConfig
  custom_props : List (String × JValue)

/-- The bone names of `obj.data.bones` (empty when there is no datablock;
a Blender armature object always carries one). -/
def Object.armNames (o : Object) : List String :=
  match o.data with
  | some arm => arm.names
  | none => []

/-! ## utils.py -/

/-- `get_jiggle_config`: the config of an armature object, if any. -/
def get_jiggle_config (obj : Option Object) : Option JiggleConfig :=
  match obj with
  | some o => if o.type = "ARMATURE" then o.jiggle_config else none
  | none => none

/-- The `while current_bone:` loop of `get_bones_in_chain`, fuel-indexed.
`none` means the fuel ran out with the loop still going. -/
def chainWalk (arm : Armature) (start_bone : String) :
    Nat → Bone → List String → List String → Option (List String)
  | 0, _, _, _ => none
  | fuel + 1, current, visited, chain =>
    if current.name ∈ visited then
      some []
    else if current.name = start_bone then
      some (chain ++ [current.name]).reverse
    else
      match arm.step current with
      | none => some []
      | some parentBone =>
        chainWalk arm start_bone fuel parentBone
          (current.name :: visited) (chain ++ [current.name])

/-- Fuel that always suffices for `chainWalk`: one more than the number of
bones, since each iteration visits a fresh bone name. -/
def chainFuel (obj : Option Object) : Nat :=
  match obj with
  | some o =>
    match o.data with
    | some arm => arm.bones.length + 1
    | none => 1
  | none => 1

/-- `get_bones_in_chain` with an explicit fuel for its walk loop. -/
def get_bones_in_chainF (obj : Option Object) (start_bone end_bone : String)
    (fuel : Nat) : List String :=
  match obj with
  | none => []
  | some o =>
    if o.type ≠ "ARMATURE" then []
    else
      match o.data with
      | none => []
      | some arm =>
        if start_bone ∈ arm.names ∧ end_bone ∈ arm.names then
          match arm.lookup end_bone with
          | none => []
          | some end_bone_obj =>
            if start_bone = end_bone then [start_bone]
            else (chainWalk arm start_bone fuel end_bone_obj [] []).getD []
        else []

/-- `get_bones_in_chain(obj, start_bone, end_bone)`. -/
def get_bones_in_chain (obj : Option Object) (start_bone end_bone : String) :
    List String :=
  get_bones_in_chainF obj start_bone end_bone (chainFuel obj)

/-- `validate_jiggle_chain(obj, start_bone, end_bone)`. -/
def validate_jiggle_chain (obj : Option Object) (start_bone end_bone : String) :
    Bool × String :=
  match obj with
  | none => (false, ERROR_NOT_ARMATURE)
  | some o =>
    if o.type ≠ "ARMATURE" then (false, ERROR_NOT_ARMATURE)
    else if start_bone = "" then (false, ERROR_START_BONE_EMPTY)
    else if end_bone = "" then (false, ERROR_END_BONE_EMPTY)
    else if start_bone ∉ o.armNames then
      (false, ERROR_START_BONE_NOT_FOUND start_bone)
    else if end_bone ∉ o.armNames then
      (false, ERROR_END_BONE_NOT_FOUND end_bone)
    else if get_bones_in_chain (some o) start_bone end_bone = [] then
      (false, ERROR_INVALID_CHAIN start_bone end_bone)
    else (true, "")

/-- `chain.to_dict()` from properties.py. -/
def JiggleChain.to_dict (c : JiggleChain) : JValue :=
  .jdict
    [ ("start_bone", .jstr c.start_bone)
    , ("end_bone", .jstr c.end_bone)
    , ("stiffness", .jnum c.stiffness)
    , ("drag", .jnum c.drag)
    , ("gravity", .jnum c.gravity)
    , ("radius", .jnum c.radius)
    , ("extend_end_bone", .jbool c.extend_end_bone) ]

/-- `config.to_json()`: the serialized chain list (JSON text embedded as its
parsed value). -/
def JiggleConfig.to_json (cfg : JiggleConfig) : JValue :=
  .jlist (cfg.chains.map JiggleChain.to_dict)

/-- `obj[key] = v` on custom properties. -/
def Object.setCustomProp (o : Object) (key : String) (v : JValue) : Object :=
  { o with custom_props := (key, v) :: o.custom_props.filter (fun kv => kv.1 ≠ key) }

/-- `save_jiggle_config_to_custom_properties(obj)`: returns the Python result
together with the updated object. -/
def save_jiggle_config_to_custom_properties (obj : Option Object) :
    Bool × Option Object :=
  match obj with
  | none => (false, none)
  | some o =>
    if o.type ≠ "ARMATURE" then (false, some o)
    else
      match get_jiggle_config (some o) with
      | none => (false, some o)
      | some config =>
        (true, some (o.setCustomProp JIGGLE_CONFIG_KEY config.to_json))

/-- `config_dict.get(key, default)` for a JSON dictionary. -/
def dictGet (entries : List (String × JValue)) (key : String) : Option JValue :=
  entries.lookup key

/-- `chain_data.get("...", default)` assignments of the import loop.  A present
key of the wrong JSON type would raise inside Blender's property setter and be
caught by the surrounding `except`; the claims never touch that case and the
wrong-type value is embedded as the default. -/
def chainFromData (entries : List (String × JValue)) : JiggleChain :=
  { start_bone :=
      match dictGet entries "start_bone" with
      | some (.jstr s) => s
      | _ => ""
    end_bone :=
      match dictGet entries "end_bone" with
      | some (.jstr s) => s
      | _ => ""
    stiffness :=
      match dictGet entries "stiffness" with
      | some (.jnum q) => q
      | _ => DEFAULT_STIFFNESS
    drag :=
      match dictGet entries "drag" with
      | some (.jnum q) => q
      | _ => DEFAULT_DRAG
    gravity :=
      match dictGet entries "gravity" with
      | some (.jnum q) => q
      | _ => DEFAULT_GRAVITY
    radius :=
      match dictGet entries "radius" with
      | some (.jnum q) => q
      | _ => DEFAULT_RADIUS
    extend_end_bone :=
      match dictGet entries "extend_end_bone" with
      | some (.jbool b) => b
      | _ => false }

/-- Replace the chains of the object's jiggle config
(`config.chains.clear()` followed by the `add()` loop). -/
def Object.setConfigChains (o : Object) (cs : List JiggleChain) : Object :=
  match o.jiggle_config with
  | some cfg => { o with jiggle_config := some { cfg with chains := cs } }
  | none => o

/-- `import_jiggle_config_from_dict(obj, config_dict)`: the Python return value
together with the object state after the call. -/
def import_jiggle_config_from_dict (obj : Option Object) (config_dict : JValue) :
    Bool × Option Object :=
  match config_dict with
  | JValue.jdict kvs =>
    match obj, get_jiggle_config obj with
    | some o, some _config =>
      (match dictGet kvs "chains" with
       | none => (false, some o)
       | some chains_v =>
         match chains_v with
         | JValue.jlist chains_data =>
           if chains_data.all JValue.isDict then
             let newChains := chains_data.map (fun cd =>
               match cd with
               | .jdict entries => chainFromData entries
               | _ => chainFromData [])
             let o' := o.setConfigChains newChains
             match save_jiggle_config_to_custom_properties (some o') with
             | (true, obj'') => (true, obj'')
             | (false, obj'') => (false, obj'')
           else (false, some o)
         | _ => (false, some o))
    | _, _ => (false, obj)
  | _ => (false, obj)

/-! ## ui.py: side-suffix parsing and filtering -/

/-- `bone_name.rsplit(".", 1)[0]`: drop the final dot-separated component
(the duplicate-disambiguation suffix), when the name contains a dot. -/
def stripDup (bone_name : String) : String :=
  if '.' ∈ bone_name.data then
    String.mk ((bone_name.data.reverse.dropWhile (fun c => c ≠ '.')).tail.reverse)
  else bone_name

/-- `re.match(r"(.+?)\.(L|R)$", s, re.IGNORECASE)`: the string splits as
`base ++ "." ++ side` with `side` one of `L,l,R,r`, a non-empty `base` and —
since `.` does not cross newlines — no newline in `base`.  (The anchored `$`
is embedded as strict end of string; Python would also accept a trailing
newline, a form no bone name takes.)  Yields `(base, side)` char lists. -/
def matchDotLR (s : List Char) : Option (List Char × List Char) :=
  match s.reverse with
  | c :: d :: revBase =>
    if d = '.' ∧ (c = 'L' ∨ c = 'l' ∨ c = 'R' ∨ c = 'r') ∧ revBase ≠ [] ∧
        '\n' ∉ revBase then
      some (revBase.reverse, [c])
    else none
  | _ => none

/-- `re.match(r"(.+?)_([LR])$", s, re.IGNORECASE)`. -/
def matchUnderscoreLR (s : List Char) : Option (List Char × List Char) :=
  match s.reverse with
  | c :: d :: revBase =>
    if d = '_' ∧ (c = 'L' ∨ c = 'l' ∨ c = 'R' ∨ c = 'r') ∧ revBase ≠ [] ∧
        '\n' ∉ revBase then
      some (revBase.reverse, [c])
    else none
  | _ => none

/-- The `left` alternative of `(left|right)` in the third pattern: the string
ends with `"_left"` (case-insensitive) after a non-empty newline-free base. -/
def matchUnderscoreLeft (s : List Char) : Option (List Char × List Char) :=
  match s.reverse with
  | t :: f :: e :: l :: u :: revBase =>
    if u = '_' ∧ l.toLower = 'l' ∧ e.toLower = 'e' ∧ f.toLower = 'f' ∧ t.toLower = 't'
        ∧ revBase ≠ [] ∧ '\n' ∉ revBase then
      some (revBase.reverse, [l, e, f, t])
    else none
  | _ => none

/-- The `right` alternative of `(left|right)` in the third pattern. -/
def matchUnderscoreRight (s : List Char) : Option (List Char × List Char) :=
  match s.reverse with
  | t :: h :: g :: i :: r :: u :: revBase =>
    if u = '_' ∧ r.toLower = 'r' ∧ i.toLower = 'i' ∧ g.toLower = 'g' ∧ h.toLower = 'h'
        ∧ t.toLower = 't' ∧ revBase ≠ [] ∧ '\n' ∉ revBase then
      some (revBase.reverse, [r, i, g, h, t])
    else none
  | _ => none

/-- `re.match(r"(.+?)_(left|right)$", s, re.IGNORECASE)`: the two alternatives
end in suffixes of different lengths both led by `_`, so they are mutually
exclusive. -/
def matchUnderscoreWord (s : List Char) : Option (List Char × List Char) :=
  match matchUnderscoreLeft s with
  | some r => some r
  | none => matchUnderscoreRight s

/-- `_parse_bone_side(bone_name)`: strip the duplicate suffix, try the three
patterns in order, lowercase the base and uppercase the side. -/
def parseBoneSide (bone_name : String) : String × String :=
  let stripped := stripDup bone_name
  match matchDotLR stripped.data with
  | some (base, side) =>
    (String.mk (base.map Char.toLower), String.mk (side.map Char.toUpper))
  | none =>
    match matchUnderscoreLR stripped.data with
    | some (base, side) =>
      (String.mk (base.map Char.toLower), String.mk (side.map Char.toUpper))
    | none =>
      match matchUnderscoreWord stripped.data with
      | some (base, side) =>
        (String.mk (base.map Char.toLower), String.mk (side.map Char.toUpper))
      | none => (String.mk (stripped.data.map Char.toLower), "")

/-- The mirrored-pair test of the `for bone_name in bone_names[1:]` loop:
same base as the first bone, a side, and a different side. -/
def isMirrored (firstParsed : String × String) (bn : String) : Bool :=
  decide ((parseBoneSide bn).1 = firstParsed.1 ∧ (parseBoneSide bn).2 ≠ "" ∧
    (parseBoneSide bn).2 ≠ firstParsed.2)

/-- The keep test of the filtering loop: no side, the first bone's side, or a
different base. -/
def keepBone (firstParsed : String × String) (bn : String) : Bool :=
  decide ((parseBoneSide bn).2 = "" ∨ (parseBoneSide bn).2 = firstParsed.2 ∨
    (parseBoneSide bn).1 ≠ firstParsed.1)

/-- `filter_bones_by_side(bone_names)`. -/
def filter_bones_by_side (bone_names : List String) : List String :=
  if bone_names.length < 2 then bone_names
  else
    match bone_names with
    | [] => []
    | first_bone :: rest =>
      if (parseBoneSide first_bone).2 = "" then bone_names
      else if rest.any (isMirrored (parseBoneSide first_bone)) = false then bone_names
      else
        let filtered_bones := bone_names.filter (keepBone (parseBoneSide first_bone))
        if filtered_bones = [] then bone_names else filtered_bones

/-! ## ui.py: rotation-chain hierarchy builder -/

/-- The inner `while current_bone:` ancestor walk of `find_topmost_bone`,
fuel-indexed.  `some b` = the loop finished with `is_topmost = b`; `none` =
the fuel ran out with the loop still going (the Python loop has no cycle
guard). -/
def topmostWalk (arm : Armature) (selected : List String) :
    Nat → Option Bone → Option Bool
  | _, none => some true
  | 0, some _ => none
  | fuel + 1, some current =>
    if current.name ∈ selected then some false
    else topmostWalk arm selected fuel (arm.step current)

/-- The `for bone_name in selected_bones` loop of `find_topmost_bone`.
`some r` = the Python call returns `r` (a bone or `None`); `none` = some
inner ancestor walk never finished within the fuel. -/
def findTopmostAux (arm : Armature) (selected : List String) (fuel : Nat) :
    List String → Option (Option Bone)
  | [] => some none
  | bone_name :: rest =>
    match arm.lookup bone_name with
    | none => findTopmostAux arm selected fuel rest
    | some bone =>
      match topmostWalk arm selected fuel (arm.step bone) with
      | none => none
      | some true => some (some bone)
      | some false => findTopmostAux arm selected fuel rest

/-- `find_topmost_bone(armature, selected_bones)`, fuel-indexed. -/
def find_topmost_bone (arm : Armature) (selected : List String) (fuel : Nat) :
    Option (Option Bone) :=
  findTopmostAux arm selected fuel selected

/-- `children_in_selection`: the bones of the armature whose parent is
`current` and whose name is selected (object comparison `bone.parent ==
current_bone` embedded as name comparison, names being unique). -/
def childrenInSelection (arm : Armature) (selected : List String) (current : Bone) :
    List Bone :=
  arm.bones.filter (fun b => b.parent = some current.name ∧ b.name ∈ selected)

/-- `build_chain_bfs(top_bone, selected_bones)`, fuel-indexed over the
`while bones_to_visit:` loop. -/
def build_chain_bfs (arm : Armature) (selected : List String) :
    Nat → List Bone → List String → Option (List String)
  | _, [], chain => some chain
  | 0, _ :: _, _ => none
  | fuel + 1, current :: rest, chain =>
    if current.name ∈ selected then
      build_chain_bfs arm selected fuel
        (rest ++ childrenInSelection arm selected current) (chain ++ [current.name])
    else build_chain_bfs arm selected fuel rest chain

/-- `build_chain_from_top(top_bone, selected_bones)`, fuel-indexed over the
`while current_bone:` descent (the breadth-first fallback shares the fuel). -/
def build_chain_from_top (arm : Armature) (selected : List String) (top : Bone) :
    Nat → Bone → List String → Option (List String × Bool × Option String)
  | 0, _, _ => none
  | fuel + 1, current, chain =>
    if current.name ∈ selected then
      let chain' := chain ++ [current.name]
      match childrenInSelection arm selected current with
      | [] => some (chain', true, none)
      | [child] => build_chain_from_top arm selected top fuel child chain'
      | _ :: _ :: _ =>
        match build_chain_bfs arm selected fuel [top] [] with
        | none => none
        | some bfs_chain => some (bfs_chain, false, some current.name)
    else some (chain, true, none)

/-! ## Basic facts about lookup and the parent step -/

theorem Armature.lookup_name {arm : Armature} {n : String} {b : Bone}
    (h : arm.lookup n = some b) : b.name = n := by
  have := List.find?_some h
  simpa using this

theorem Armature.lookup_mem {arm : Armature} {n : String} {b : Bone}
    (h : arm.lookup n = some b) : b ∈ arm.bones :=
  List.mem_of_find?_eq_some h

theorem Armature.name_mem_names {arm : Armature} {b : Bone}
    (h : b ∈ arm.bones) : b.name ∈ arm.names :=
  List.mem_map_of_mem Bone.name h

theorem Armature.step_mem {arm : Armature} {b c : Bone}
    (h : arm.step b = some c) : c ∈ arm.bones := by
  unfold Armature.step at h
  cases hp : b.parent with
  | none => rw [hp] at h; simp at h
  | some p => rw [hp] at h; exact Armature.lookup_mem h

theorem stepIter_mem {arm : Armature} {b c : Bone} {n : Nat}
    (hb : b ∈ arm.bones) (h : stepIter arm n b = some c) : c ∈ arm.bones := by
  induction n generalizing b with
  | zero => simp [stepIter] at h; exact h ▸ hb
  | succ n ih =>
    simp only [stepIter] at h
    cases hs : arm.step b with
    | none => rw [hs] at h; simp at h
    | some nxt => rw [hs] at h; exact ih (Armature.step_mem hs) h

theorem stepIter_shift {arm : Armature} {cur nxt : Bone} (i : Nat)
    (h : arm.step cur = some nxt) :
    stepIter arm (i + 1) cur = stepIter arm i nxt := by
  simp [stepIter, h]

theorem stepIter_succ_some {arm : Armature} {cur t : Bone} {k : Nat}
    (h : stepIter arm (k + 1) cur = some t) :
    ∃ nxt, arm.step cur = some nxt ∧ stepIter arm k nxt = some t := by
  simp only [stepIter] at h
  cases hs : arm.step cur with
  | none => rw [hs] at h; simp at h
  | some nxt => rw [hs] at h; exact ⟨nxt, rfl, h⟩

theorem stepIter_add (arm : Armature) (m n : Nat) (b : Bone) :
    stepIter arm (m + n) b = (stepIter arm m b).bind (stepIter arm n) := by
  induction m generalizing b with
  | zero => simp [stepIter]
  | succ m ih =>
    have hmn : m + 1 + n = (m + n) + 1 := by omega
    rw [hmn]
    simp only [stepIter]
    cases hs : arm.step b with
    | none => simp
    | some nxt => simp [ih]

theorem stepIter_succ_right (arm : Armature) (n : Nat) (b : Bone) :
    stepIter arm (n + 1) b = (stepIter arm n b).bind arm.step := by
  have h := stepIter_add arm n 1 b
  rw [h]
  cases stepIter arm n b with
  | none => rfl
  | some c =>
    show stepIter arm 1 c = arm.step c
    simp only [stepIter]
    cases arm.step c <;> rfl

theorem stepIter_none_mono {arm : Armature} {b : Bone} {m m' : Nat}
    (h : stepIter arm m b = none) (hle : m ≤ m') : stepIter arm m' b = none := by
  have key : ∀ d, stepIter arm (m + d) b = none := by
    intro d
    induction d with
    | zero => simpa using h
    | succ d ih =>
      have : m + (d + 1) = (m + d) + 1 := by omega
      rw [this, stepIter_succ_right, ih]
      rfl
  have : m' = m + (m' - m) := by omega
  rw [this]
  exact key _

/-- With unique bone names, a name determines the bone. -/
theorem bone_eq_of_name_eq {arm : Armature} {b c : Bone}
    (hnd : arm.names.Nodup) (hb : b ∈ arm.bones) (hc : c ∈ arm.bones)
    (h : b.name = c.name) : b = c :=
  List.inj_on_of_nodup_map hnd hb hc h

/-- In a well-formed forest, `d` is the depth of `b`: walking `d` parent
steps from `b` reaches a bone whose parent link resolves to nothing. -/
def reachesRoot (arm : Armature) (b : Bone) (d : Nat) : Prop :=
  ∃ r, stepIter arm d b = some r ∧ arm.step r = none

theorem reachesRoot_unique {arm : Armature} {b : Bone} {d₁ d₂ : Nat}
    (h₁ : reachesRoot arm b d₁) (h₂ : reachesRoot arm b d₂) : d₁ = d₂ := by
  obtain ⟨r₁, hs₁, hr₁⟩ := h₁
  obtain ⟨r₂, hs₂, hr₂⟩ := h₂
  by_contra hne
  rcases Nat.lt_or_ge d₁ d₂ with h | h
  · have hnone : stepIter arm (d₁ + 1) b = none := by
      rw [stepIter_succ_right, hs₁]
      exact hr₁
    have := stepIter_none_mono hnone (by omega : d₁ + 1 ≤ d₂)
    rw [hs₂] at this
    exact Option.noConfusion this
  · have hlt : d₂ < d₁ := by omega
    have hnone : stepIter arm (d₂ + 1) b = none := by
      rw [stepIter_succ_right, hs₂]
      exact hr₂
    have := stepIter_none_mono hnone (by omega : d₂ + 1 ≤ d₁)
    rw [hs₁] at this
    exact Option.noConfusion this

/-- If some iterate repeats, the iterates are periodic from there on and are
`some` forever after; hence on a branch that reaches a root all `some`
iterates are pairwise distinct. -/
theorem stepIter_inj_of_reachesRoot {arm : Armature} {b : Bone} {d : Nat}
    (hroot : reachesRoot arm b d) {i j : Nat} {bi bj : Bone}
    (hij : i < j) (hi : stepIter arm i b = some bi) (hj : stepIter arm j b = some bj) :
    bi ≠ bj := by
  obtain ⟨r, hs, hr⟩ := hroot
  intro heq
  subst heq
  -- iterates shifted by the period p = j - i agree
  have hshift : ∀ t, stepIter arm (i + t) b = stepIter arm (j + t) b := by
    intro t
    rw [stepIter_add arm i t, stepIter_add arm j t, hi, hj]
  -- hence `some` forever: stepIter (i + n * (j - i)) b = some bi
  have hper : ∀ n, stepIter arm (i + n * (j - i)) b = some bi := by
    intro n
    induction n with
    | zero => simpa using hi
    | succ n ih =>
      have harith : i + (n + 1) * (j - i) = j + n * (j - i) := by
        have h1 : (n + 1) * (j - i) = n * (j - i) + (j - i) := Nat.succ_mul n (j - i)
        omega
      rw [harith, ← hshift (n * (j - i))]
      exact ih
  -- but the walk dies at depth d + 1
  have hnone : stepIter arm (d + 1) b = none := by
    rw [stepIter_succ_right, hs]
    exact hr
  have hbig : d + 1 ≤ i + (d + 1) * (j - i) := by
    have hp : 1 ≤ j - i := by omega
    calc d + 1 ≤ (d + 1) * (j - i) := Nat.le_mul_of_pos_right _ (by omega)
    _ ≤ i + (d + 1) * (j - i) := by omega
  have := stepIter_none_mono hnone hbig
  rw [hper (d + 1)] at this
  exact Option.noConfusion this

/-! ## Facts about the chain walk -/

/-- The walk is monotone in its fuel: a finished run stays the same run. -/
theorem chainWalk_mono {arm : Armature} {s : String} :
    ∀ {f₁ f₂ : Nat} {cur : Bone} {vis ch r : List String},
      f₁ ≤ f₂ → chainWalk arm s f₁ cur vis ch = some r →
      chainWalk arm s f₂ cur vis ch = some r := by
  intro f₁
  induction f₁ with
  | zero =>
    intro f₂ cur vis ch r _ h
    exact absurd h (by simp [chainWalk])
  | succ f₁ ih =>
    intro f₂ cur vis ch r hle h
    cases f₂ with
    | zero => omega
    | succ f₂ =>
      simp only [chainWalk] at h ⊢
      by_cases hv : cur.name ∈ vis
      · simpa [hv] using h
      · by_cases heq : cur.name = s
        · simpa [hv, heq] using h
        · simp only [if_neg hv, if_neg heq] at h ⊢
          cases hstep : arm.step cur with
          | none => rw [hstep] at h; exact h
          | some nxt => rw [hstep] at h; exact ih (by omega) h

/-- Each iteration of the walk visits a fresh bone name of the armature, so
`bones.length + 1` fuel always finishes the loop: the Python loop terminates
on every input, cyclic parent data included. -/
theorem chainWalk_total {arm : Armature} {s : String} :
    ∀ {fuel : Nat} {cur : Bone} {vis ch : List String},
      cur ∈ arm.bones → vis.Nodup → (∀ v ∈ vis, v ∈ arm.names) →
      arm.bones.length + 1 ≤ fuel + vis.length →
      (chainWalk arm s fuel cur vis ch).isSome := by
  intro fuel
  induction fuel with
  | zero =>
    intro cur vis ch _ hnd hsub hfuel
    exfalso
    have hle : vis.length ≤ arm.names.length :=
      (List.subperm_of_subset hnd hsub).length_le
    have : arm.names.length = arm.bones.length := List.length_map _ _
    omega
  | succ fuel ih =>
    intro cur vis ch hcur hnd hsub hfuel
    simp only [chainWalk]
    by_cases hv : cur.name ∈ vis
    · simp [hv]
    · by_cases heq : cur.name = s
      · simp only [if_neg hv, if_pos heq]
        simp
      · simp only [if_neg hv, if_neg heq]
        cases hstep : arm.step cur with
        | none => simp
        | some nxt =>
          exact ih (Armature.step_mem hstep) (List.nodup_cons.mpr ⟨hv, hnd⟩)
            (by
              intro v hvmem
              rcases List.mem_cons.mp hvmem with h | h
              · exact h ▸ Armature.name_mem_names hcur
              · exact hsub v h)
            (by simp only [List.length_cons]; omega)

/-- A finished, non-empty walk starts at the searched name, ends at the bone
the walk started from, and repeats no name: the `visited` guard runs in step
with the accumulated chain. -/
theorem chainWalk_sound {arm : Armature} {s : String} :
    ∀ {fuel : Nat} {cur : Bone} {vis ch r : List String},
      ch = vis.reverse → vis.Nodup →
      chainWalk arm s fuel cur vis ch = some r →
      r = [] ∨ (r.head? = some s ∧ r.getLast? = (ch ++ [cur.name]).head? ∧ r.Nodup) := by
  intro fuel
  induction fuel with
  | zero =>
    intro cur vis ch r _ _ h
    exact absurd h (by simp [chainWalk])
  | succ fuel ih =>
    intro cur vis ch r hch hnd h
    simp only [chainWalk] at h
    by_cases hv : cur.name ∈ vis
    · rw [if_pos hv] at h
      exact Or.inl (by simpa using h.symm)
    · rw [if_neg hv] at h
      by_cases heq : cur.name = s
      · rw [if_pos heq] at h
        refine Or.inr ?_
        have hr : r = (ch ++ [cur.name]).reverse := by simpa using h.symm
        subst hr
        refine ⟨?_, ?_, ?_⟩
        · rw [List.head?_reverse, List.getLast?_concat, heq]
        · rw [List.getLast?_reverse]
        · rw [List.nodup_reverse, hch, ← List.reverse_cons, List.nodup_reverse]
          exact List.nodup_cons.mpr ⟨hv, hnd⟩
      · rw [if_neg heq] at h
        cases hstep : arm.step cur with
        | none =>
          rw [hstep] at h
          exact Or.inl (by simpa using h.symm)
        | some nxt =>
          rw [hstep] at h
          have hch' : ch ++ [cur.name] = (cur.name :: vis).reverse := by
            rw [List.reverse_cons, hch]
          have hnd' : (cur.name :: vis).Nodup := List.nodup_cons.mpr ⟨hv, hnd⟩
          rcases ih hch' hnd' h with hnil | ⟨h1, h2, h3⟩
          · exact Or.inl hnil
          · refine Or.inr ⟨h1, ?_, h3⟩
            rw [h2, List.head?_append_of_ne_nil]
            simp

/-- A finished walk that produced a non-empty chain reached a bone named
`s` within `fuel` parent steps of the bone it started from. -/
theorem chainWalk_reaches {arm : Armature} {s : String} :
    ∀ {fuel : Nat} {cur : Bone} {vis ch r : List String},
      chainWalk arm s fuel cur vis ch = some r → r ≠ [] →
      ∃ k b, k < fuel ∧ stepIter arm k cur = some b ∧ b.name = s := by
  intro fuel
  induction fuel with
  | zero =>
    intro cur vis ch r h _
    exact absurd h (by simp [chainWalk])
  | succ fuel ih =>
    intro cur vis ch r h hne
    simp only [chainWalk] at h
    by_cases hv : cur.name ∈ vis
    · rw [if_pos hv] at h
      exact absurd (by simpa using h.symm) hne
    · rw [if_neg hv] at h
      by_cases heq : cur.name = s
      · exact ⟨0, cur, by omega, rfl, heq⟩
      · rw [if_neg heq] at h
        cases hstep : arm.step cur with
        | none =>
          rw [hstep] at h
          exact absurd (by simpa using h.symm) hne
        | some nxt =>
          rw [hstep] at h
          obtain ⟨k, b, hk, hstepk, hname⟩ := ih h hne
          exact ⟨k + 1, b, by omega, by rw [stepIter_shift k hstep]; exact hstepk, hname⟩

/-- Partial correctness of the walk on a repeat-free ancestor path: if bone
`s` sits `k` parent steps above the walk's start (and no earlier step carries
the name `s`, no step's name was already visited, and the step names are
pairwise distinct), a finished walk returns the whole path, of length
`k + 1` on top of the accumulator. -/
theorem chainWalk_path {arm : Armature} {s : String} :
    ∀ {fuel : Nat} {cur : Bone} {vis ch r : List String} {k : Nat} {target : Bone},
      stepIter arm k cur = some target → target.name = s →
      (∀ i b, i < k → stepIter arm i cur = some b → b.name ≠ s) →
      (∀ i b, i ≤ k → stepIter arm i cur = some b → b.name ∉ vis) →
      (∀ i j bi bj, i < j → j ≤ k → stepIter arm i cur = some bi →
        stepIter arm j cur = some bj → bi.name ≠ bj.name) →
      chainWalk arm s fuel cur vis ch = some r →
      r.length = ch.length + k + 1 ∧ r.head? = some s ∧
        r.getLast? = (ch ++ [cur.name]).head? := by
  intro fuel
  induction fuel with
  | zero =>
    intro cur vis ch r k target _ _ _ _ _ h
    exact absurd h (by simp [chainWalk])
  | succ fuel ih =>
    intro cur vis ch r k target hstepk hname hnots hnvis hdist h
    simp only [chainWalk] at h
    have hv : cur.name ∉ vis := hnvis 0 cur (by omega) rfl
    rw [if_neg hv] at h
    cases k with
    | zero =>
      have hcur : cur = target := by simpa [stepIter] using hstepk
      have heq : cur.name = s := hcur ▸ hname
      rw [if_pos heq] at h
      have hr : r = (ch ++ [cur.name]).reverse := by simpa using h.symm
      subst hr
      refine ⟨by simp, ?_, ?_⟩
      · rw [List.head?_reverse, List.getLast?_concat, heq]
      · rw [List.getLast?_reverse]
    | succ k =>
      have heq : cur.name ≠ s := hnots 0 cur (by omega) rfl
      rw [if_neg heq] at h
      obtain ⟨nxt, hstep, hstepk'⟩ := stepIter_succ_some hstepk
      rw [hstep] at h
      have hshift : ∀ i, stepIter arm (i + 1) cur = stepIter arm i nxt :=
        fun i => stepIter_shift i hstep
      have hmain := @ih nxt (cur.name :: vis) (ch ++ [cur.name]) r k target
        hstepk' hname
        (by
          intro i b hi hb
          exact hnots (i + 1) b (by omega) (by rw [hshift i]; exact hb))
        (by
          intro i b hi hb
          have hb' : stepIter arm (i + 1) cur = some b := by rw [hshift i]; exact hb
          intro hmem
          rcases List.mem_cons.mp hmem with hcase | hcase
          · exact hdist 0 (i + 1) cur b (by omega) (by omega) rfl hb' hcase.symm
          · exact hnvis (i + 1) b (by omega) hb' hcase)
        (by
          intro i j bi bj hij hj hbi hbj
          exact hdist (i + 1) (j + 1) bi bj (by omega) (by omega)
            (by rw [hshift i]; exact hbi) (by rw [hshift j]; exact hbj))
        h
      obtain ⟨hlen, hhead, hlast⟩ := hmain
      refine ⟨?_, hhead, ?_⟩
      · rw [hlen]
        simp only [List.length_append, List.length_cons, List.length_nil]
        omega
      · rw [hlast, List.head?_append_of_ne_nil]
        simp

/-! ## Concrete skeletons used as test inputs -/

/-- The scenario skeleton `spine → spine.001 → spine.002`. -/
def spineArm : Armature :=
  ⟨[⟨"spine", none⟩, ⟨"spine.001", some "spine"⟩, ⟨"spine.002", some "spine.001"⟩]⟩

def spineObj : Object :=
  { type := "ARMATURE", data := some spineArm, jiggle_config := none, custom_props := [] }

/-- Two bones whose parent links form a 2-cycle: `s ⇄ e`. -/
def twoCycleArm : Armature := ⟨[⟨"s", some "e"⟩, ⟨"e", some "s"⟩]⟩

def twoCycleObj : Object :=
  { type := "ARMATURE", data := some twoCycleArm, jiggle_config := none, custom_props := [] }

/-- A 2-cycle `A ⇄ B` plus a root `S` that is not reachable from it. -/
def cycleRootArm : Armature :=
  ⟨[⟨"A", some "B"⟩, ⟨"B", some "A"⟩, ⟨"S", none⟩]⟩

def cycleRootObj : Object :=
  { type := "ARMATURE", data := some cycleRootArm, jiggle_config := none, custom_props := [] }

/-- A 2-cycle `A ⇄ B` with a selected bone `C` hanging below it. -/
def cycleBelowArm : Armature :=
  ⟨[⟨"A", some "B"⟩, ⟨"B", some "A"⟩, ⟨"C", some "A"⟩]⟩

/-- A root `A` with two children `B`, `C`: the branch scenario. -/
def branchArm : Armature := ⟨[⟨"A", none⟩, ⟨"B", some "A"⟩, ⟨"C", some "A"⟩]⟩

/-! ## C1: chains between an ancestor and a descendant -/

/-- C1: for a well-formed forest (unique bone names, the walks from `s` and
`e` reaching roots at depths `ds` and `de`) with `s` sitting `k` parent steps
above `e`, `get_bones_in_chain` returns a path from `s` to `e` of length
`depth(e) − depth(s) + 1`; for `s = e` the path is the single-element `[s]`. -/
theorem get_bones_in_chain_ancestor_path
    (o : Object) (arm : Armature) (s e : String) (sb eb : Bone) (k ds de : Nat)
    (htype : o.type = "ARMATURE") (hdata : o.data = some arm)
    (hnd : arm.names.Nodup)
    (hs : arm.lookup s = some sb) (he : arm.lookup e = some eb)
    (hanc : stepIter arm k eb = some sb)
    (hds : reachesRoot arm sb ds) (hde : reachesRoot arm eb de) :
    (get_bones_in_chain (some o) s e).head? = some s ∧
    (get_bones_in_chain (some o) s e).getLast? = some e ∧
    (get_bones_in_chain (some o) s e).length = de - ds + 1 ∧
    (s = e → get_bones_in_chain (some o) s e = [s]) := by
  have hsname : sb.name = s := Armature.lookup_name hs
  have hename : eb.name = e := Armature.lookup_name he
  have hsmem : s ∈ arm.names := hsname ▸ Armature.name_mem_names (Armature.lookup_mem hs)
  have hemem : e ∈ arm.names := hename ▸ Armature.name_mem_names (Armature.lookup_mem he)
  have hebmem : eb ∈ arm.bones := Armature.lookup_mem he
  -- depth bookkeeping: e's depth is s's depth plus the ancestor distance k
  have hde' : reachesRoot arm eb (k + ds) := by
    obtain ⟨r, hr1, hr2⟩ := hds
    exact ⟨r, by rw [stepIter_add, hanc]; exact hr1, hr2⟩
  have hdepth : de = k + ds := reachesRoot_unique hde hde'
  by_cases hse : s = e
  · subst hse
    have hbeq : sb = eb := by rw [hs] at he; exact Option.some.inj he
    have hds' : ds = de := reachesRoot_unique hds (hbeq ▸ hde)
    have hres : get_bones_in_chain (some o) s s = [s] := by
      simp only [get_bones_in_chain, get_bones_in_chainF, chainFuel, hdata]
      simp [htype, hsmem, he]
    rw [hres]
    refine ⟨rfl, rfl, ?_, fun _ => rfl⟩
    simp
    omega
  · -- the walk runs; it is total and follows the ancestor path
    have hres : get_bones_in_chain (some o) s e =
        (chainWalk arm s (arm.bones.length + 1) eb [] []).getD [] := by
      simp only [get_bones_in_chain, get_bones_in_chainF, chainFuel, hdata]
      simp [htype, hsmem, hemem, he, hse]
    have htot := @chainWalk_total arm s (arm.bones.length + 1) eb [] []
      hebmem List.nodup_nil (by simp) (by simp)
    obtain ⟨r, hr⟩ := Option.isSome_iff_exists.mp htot
    have hdistB : ∀ i j bi bj, i < j → j ≤ k → stepIter arm i eb = some bi →
        stepIter arm j eb = some bj → bi.name ≠ bj.name := by
      intro i j bi bj hij _ hbi hbj hnameeq
      exact stepIter_inj_of_reachesRoot hde hij hbi hbj
        (bone_eq_of_name_eq hnd (stepIter_mem hebmem hbi) (stepIter_mem hebmem hbj) hnameeq)
    have hnots : ∀ i b, i < k → stepIter arm i eb = some b → b.name ≠ s := by
      intro i b hi hb hname
      exact hdistB i k b sb hi (Nat.le_refl k) hb hanc (by rw [hname, hsname])
    have hpath := chainWalk_path hanc hsname hnots (by simp) hdistB hr
    obtain ⟨hlen, hhead, hlast⟩ := hpath
    rw [hres, hr]
    refine ⟨hhead, ?_, ?_, fun hcontra => absurd hcontra hse⟩
    · rw [Option.getD_some] at *
      rw [hlast]
      simp [hename]
    · rw [Option.getD_some, hlen]
      simp
      omega

/-- How `get_bones_in_chain` can return: nothing, the single-bone chain, or a
finished walk's result. -/
theorem get_bones_in_chain_cases (obj : Option Object) (s e : String) :
    get_bones_in_chain obj s e = [] ∨
    (∃ o arm eb, obj = some o ∧ o.type = "ARMATURE" ∧ o.data = some arm ∧
      arm.lookup e = some eb ∧ eb.name = e ∧
      ((s = e ∧ get_bones_in_chain obj s e = [s]) ∨
       (s ≠ e ∧ ∃ r, chainWalk arm s (arm.bones.length + 1) eb [] [] = some r ∧
          get_bones_in_chain obj s e = r))) := by
  cases obj with
  | none => exact Or.inl rfl
  | some o =>
    by_cases htype : o.type = "ARMATURE"
    · cases hdata : o.data with
      | none =>
        exact Or.inl (by simp only [get_bones_in_chain, get_bones_in_chainF, hdata]; simp)
      | some arm =>
        by_cases hmem : s ∈ arm.names ∧ e ∈ arm.names
        · cases hlook : arm.lookup e with
          | none =>
            refine Or.inl ?_
            simp only [get_bones_in_chain, get_bones_in_chainF, chainFuel, hdata]
            simp [htype, hmem, hlook]
          | some eb =>
            by_cases hse : s = e
            · refine Or.inr ⟨o, arm, eb, rfl, htype, hdata, hlook,
                Armature.lookup_name hlook, Or.inl ⟨hse, ?_⟩⟩
              simp only [get_bones_in_chain, get_bones_in_chainF, chainFuel, hdata]
              simp [htype, hmem, hlook, hse]
            · cases hwalk : chainWalk arm s (arm.bones.length + 1) eb [] [] with
              | none =>
                refine Or.inl ?_
                simp only [get_bones_in_chain, get_bones_in_chainF, chainFuel, hdata]
                simp [htype, hmem, hlook, hse, hwalk]
              | some r =>
                refine Or.inr ⟨o, arm, eb, rfl, htype, hdata, hlook,
                  Armature.lookup_name hlook, Or.inr ⟨hse, r, hwalk, ?_⟩⟩
                simp only [get_bones_in_chain, get_bones_in_chainF, chainFuel, hdata]
                simp [htype, hmem, hlook, hse, hwalk]
        · refine Or.inl ?_
          simp only [get_bones_in_chain, get_bones_in_chainF, chainFuel, hdata]
          simp [htype, hmem]
    · exact Or.inl (by simp only [get_bones_in_chain, get_bones_in_chainF]; simp [htype])

/-- The canonical fuel `bones.length + 1` finishes every walk, so any larger
fuel computes the same chain. -/
theorem get_bones_in_chainF_stable (obj : Option Object) (s e : String)
    (fuel : Nat) (hfuel : chainFuel obj ≤ fuel) :
    get_bones_in_chainF obj s e fuel = get_bones_in_chain obj s e := by
  cases obj with
  | none => rfl
  | some o =>
    by_cases htype : o.type = "ARMATURE"
    · cases hdata : o.data with
      | none => simp only [get_bones_in_chain, get_bones_in_chainF, hdata]
      | some arm =>
        have hfuel' : arm.bones.length + 1 ≤ fuel := by
          simp only [chainFuel, hdata] at hfuel
          exact hfuel
        by_cases hmem : s ∈ arm.names ∧ e ∈ arm.names
        · cases hlook : arm.lookup e with
          | none =>
            simp only [get_bones_in_chain, get_bones_in_chainF, chainFuel, hdata]
            simp [htype, hmem, hlook]
          | some eb =>
            by_cases hse : s = e
            · simp only [get_bones_in_chain, get_bones_in_chainF, chainFuel, hdata]
              simp [htype, hmem, hlook, hse]
            · have htot := @chainWalk_total arm s (arm.bones.length + 1) eb [] []
                (Armature.lookup_mem hlook) List.nodup_nil
                (by simp) (by simp)
              obtain ⟨r, hr⟩ := Option.isSome_iff_exists.mp htot
              have hr' := chainWalk_mono hfuel' hr
              simp only [get_bones_in_chain, get_bones_in_chainF, chainFuel, hdata]
              simp [htype, hmem, hlook, hse, hr, hr']
        · simp only [get_bones_in_chain, get_bones_in_chainF, chainFuel, hdata]
          simp [htype, hmem]
    · simp only [get_bones_in_chain, get_bones_in_chainF]
      simp [htype]

/-- C1 witness: the spine scenario. `validate("spine","spine.002")`'s resolver
returns `[spine, spine.001, spine.002]`, a path from `spine` to `spine.002`
of length `depth(spine.002) − depth(spine) + 1 = 2 − 0 + 1`. -/
theorem get_bones_in_chain_ancestor_path_witness :
    get_bones_in_chain (some spineObj) "spine" "spine.002" =
      ["spine", "spine.001", "spine.002"] ∧
    (get_bones_in_chain (some spineObj) "spine" "spine.002").head? = some "spine" ∧
    (get_bones_in_chain (some spineObj) "spine" "spine.002").getLast? = some "spine.002" ∧
    (get_bones_in_chain (some spineObj) "spine" "spine.002").length = 2 - 0 + 1 := by
  have h := get_bones_in_chain_ancestor_path spineObj spineArm "spine" "spine.002"
    ⟨"spine", none⟩ ⟨"spine.002", some "spine.001"⟩ 2 0 2
    rfl rfl (by decide) (by decide) (by decide) (by decide)
    ⟨⟨"spine", none⟩, by decide, by decide⟩
    ⟨⟨"spine", none⟩, by decide, by decide⟩
  exact ⟨by decide, h.1, h.2.1, h.2.2.1⟩

/-! ## C9: endpoint and no-duplicate invariants of every non-empty chain -/

/-- C9: any non-empty result of `get_bones_in_chain` starts with `start_bone`,
ends with `end_bone` and repeats no bone name — for arbitrary armature data,
cyclic parent links included. -/
theorem get_bones_in_chain_endpoints (obj : Option Object) (s e : String)
    (hne : get_bones_in_chain obj s e ≠ []) :
    (get_bones_in_chain obj s e).head? = some s ∧
    (get_bones_in_chain obj s e).getLast? = some e ∧
    (get_bones_in_chain obj s e).Nodup := by
  rcases get_bones_in_chain_cases obj s e with hnil |
    ⟨o, arm, eb, hobj, htype, hdata, hlook, hname, hcase⟩
  · exact absurd hnil hne
  · rcases hcase with ⟨hse, hres⟩ | ⟨hse, r, hwalk, hres⟩
    · rw [hres]
      subst hse
      exact ⟨rfl, by simp, by simp⟩
    · have hrne : r ≠ [] := by rw [← hres]; exact hne
      rcases chainWalk_sound rfl List.nodup_nil hwalk with hnil' | ⟨h1, h2, h3⟩
      · exact absurd hnil' hrne
      · rw [hres]
        refine ⟨h1, ?_, h3⟩
        rw [h2]
        simp [hname]

/-- C9 witness: the spine chain is non-empty, runs from `spine` to
`spine.002` and has no duplicates. -/
theorem get_bones_in_chain_endpoints_witness :
    get_bones_in_chain (some spineObj) "spine" "spine.002" ≠ [] ∧
    ((get_bones_in_chain (some spineObj) "spine" "spine.002").head? = some "spine" ∧
     (get_bones_in_chain (some spineObj) "spine" "spine.002").getLast? = some "spine.002" ∧
     (get_bones_in_chain (some spineObj) "spine" "spine.002").Nodup) := by
  have hne : get_bones_in_chain (some spineObj) "spine" "spine.002" ≠ [] := by decide
  exact ⟨hne, get_bones_in_chain_endpoints (some spineObj) "spine" "spine.002" hne⟩

/-! ## C3: termination of the walk; the cycle guard -/

/-- C3 (amended): the walk of `get_bones_in_chain` always terminates — on
every armature, cyclic parent data included, the `while` loop from any bone
the armature resolves finishes (returns `some` run) within `bones.length + 1`
iterations, and any larger fuel replays that same finished run; hence the
whole function is fuel-stable, and its result is empty whenever no parent
iterate of `end_bone` within `bones.length` steps carries the name
`start_bone` (in particular for cyclic parent data whose walk never meets
`start_bone` before repeating). -/
theorem get_bones_in_chain_terminating (obj : Option Object) (s e : String) :
    (∀ o arm, obj = some o → o.data = some arm →
      ∀ eb, arm.lookup e = some eb →
        ∃ r, chainWalk arm s (arm.bones.length + 1) eb [] [] = some r ∧
          ∀ fuel, arm.bones.length + 1 ≤ fuel →
            chainWalk arm s fuel eb [] [] = some r) ∧
    (∀ fuel, chainFuel obj ≤ fuel →
      get_bones_in_chainF obj s e fuel = get_bones_in_chain obj s e) ∧
    (∀ o arm eb, obj = some o → o.data = some arm → arm.lookup e = some eb →
      (∀ k, k ≤ arm.bones.length →
        (stepIter arm k eb).all (fun b => b.name != s) = true) →
      get_bones_in_chain obj s e = []) := by
  refine ⟨?_, ?_, ?_⟩
  · intro o arm _hobj _hdata eb hlook
    have htot := @chainWalk_total arm s (arm.bones.length + 1) eb [] []
      (Armature.lookup_mem hlook) List.nodup_nil (by simp) (by simp)
    obtain ⟨r, hr⟩ := Option.isSome_iff_exists.mp htot
    exact ⟨r, hr, fun fuel hfuel => chainWalk_mono hfuel hr⟩
  · intro fuel hfuel
    exact get_bones_in_chainF_stable obj s e fuel hfuel
  · intro o arm eb hobj hdata hlook hall
    have hnames : ∀ k b, k ≤ arm.bones.length → stepIter arm k eb = some b →
        b.name ≠ s := by
      intro k b hk hstep
      have h := hall k hk
      rw [hstep] at h
      simpa using h
    rcases get_bones_in_chain_cases obj s e with hnil |
      ⟨o', arm', eb', hobj', htype', hdata', hlook', hname', hcase⟩
    · exact hnil
    · have ho : o' = o := by
        rw [hobj] at hobj'
        exact (Option.some.inj hobj').symm
      subst ho
      have harm : arm' = arm := by
        rw [hdata] at hdata'
        exact (Option.some.inj hdata').symm
      subst harm
      have heb : eb' = eb := by
        rw [hlook] at hlook'
        exact (Option.some.inj hlook').symm
      subst heb
      rcases hcase with ⟨hse, hres⟩ | ⟨hse, r, hwalk, hres⟩
      · exfalso
        apply hnames 0 _ (by omega) rfl
        rw [hname']
        exact hse.symm
      · by_cases hr : r = []
        · rw [hres, hr]
        · exfalso
          obtain ⟨k, b, hk, hstep, hbn⟩ := chainWalk_reaches hwalk hr
          exact hnames k b (by omega) hstep hbn

/-- C3 counterexample: cyclic parent data in the claim's own sense — `e` is
reachable again from `end_bone = e` by following parent links — on which
`get_bones_in_chain` returns the non-empty chain `["s", "e"]`, not `[]`:
the walk meets `start_bone = s` before the cycle guard fires. -/
theorem get_bones_in_chain_cycle_counterexample :
    stepIter twoCycleArm 2 ⟨"e", some "s"⟩ = some ⟨"e", some "s"⟩ ∧
    get_bones_in_chain (some twoCycleObj) "s" "e" = ["s", "e"] ∧
    get_bones_in_chain (some twoCycleObj) "s" "e" ≠ [] := by decide

/-- C3 witness: on the armature `A ⇄ B` with root `S` — cyclic parent data —
the `while` loop from `A` finishes within the canonical fuel 4 and any larger
fuel replays the same run; the walk never meets `S`, so the chain from `S` to
`A` is empty, and the canonical fuel is stable under enlargement. -/
theorem get_bones_in_chain_terminating_witness :
    (∃ r, chainWalk cycleRootArm "S" (cycleRootArm.bones.length + 1)
        ⟨"A", some "B"⟩ [] [] = some r ∧
      ∀ fuel, cycleRootArm.bones.length + 1 ≤ fuel →
        chainWalk cycleRootArm "S" fuel ⟨"A", some "B"⟩ [] [] = some r) ∧
    (chainFuel (some cycleRootObj) ≤ 7 ∧
      get_bones_in_chainF (some cycleRootObj) "S" "A" 7 =
        get_bones_in_chain (some cycleRootObj) "S" "A") ∧
    get_bones_in_chain (some cycleRootObj) "S" "A" = [] := by
  have h := get_bones_in_chain_terminating (some cycleRootObj) "S" "A"
  refine ⟨h.1 cycleRootObj cycleRootArm rfl rfl ⟨"A", some "B"⟩ (by decide),
    ⟨by decide, h.2.1 7 (by decide)⟩, ?_⟩
  exact h.2.2 cycleRootObj cycleRootArm ⟨"A", some "B"⟩ rfl rfl (by decide) (by decide)

/-! ## C4: the topmost-bone search has no cycle guard -/

/-- On the `A ⇄ B` cycle with only `C` selected, the ancestor walk that
starts above `C` alternates between `A` and `B` forever: no fuel finishes
it. -/
theorem topmostWalk_cycleBelow_stuck (fuel : Nat) :
    topmostWalk cycleBelowArm ["C"] fuel (some ⟨"A", some "B"⟩) = none ∧
    topmostWalk cycleBelowArm ["C"] fuel (some ⟨"B", some "A"⟩) = none := by
  induction fuel with
  | zero => exact ⟨rfl, rfl⟩
  | succ fuel ih =>
    constructor
    · simp only [topmostWalk]
      rw [if_neg (by decide)]
      have hstep : cycleBelowArm.step ⟨"A", some "B"⟩ = some ⟨"B", some "A"⟩ := by decide
      rw [hstep]
      exact ih.2
    · simp only [topmostWalk]
      rw [if_neg (by decide)]
      have hstep : cycleBelowArm.step ⟨"B", some "A"⟩ = some ⟨"A", some "B"⟩ := by decide
      rw [hstep]
      exact ih.1

/-- C4 (code bug): on cyclic parent data whose cycle contains no selected
bone, `find_topmost_bone` never returns — its inner `while` loop walks the
`A ⇄ B` cycle forever, for any amount of fuel — although `C` is exactly the
bone the claim promises (a selected bone none of whose ancestors, `A` and
`B` within the armature's three bones, is selected). -/
theorem find_topmost_bone_diverges :
    (∀ fuel, find_topmost_bone cycleBelowArm ["C"] fuel = none) ∧
    (∀ k, 1 ≤ k → k ≤ 3 →
      (stepIter cycleBelowArm k ⟨"C", some "A"⟩).all (fun b => b.name != "C") = true) := by
  constructor
  · intro fuel
    show findTopmostAux cycleBelowArm ["C"] fuel ["C"] = none
    have hlook : cycleBelowArm.lookup "C" = some ⟨"C", some "A"⟩ := by decide
    have hstep : cycleBelowArm.step ⟨"C", some "A"⟩ = some ⟨"A", some "B"⟩ := by decide
    simp only [findTopmostAux, hlook, hstep, (topmostWalk_cycleBelow_stuck fuel).1]
  · decide

/-! ## C10: invariants of the linear descent -/

/-- `b` is a child bone of `a` inside the armature: the adjacency the
rotation-chain constraints rely on. -/
def parentAdj (arm : Armature) (a b : String) : Prop :=
  ∃ bone ∈ arm.bones, bone.name = b ∧ bone.parent = some a

instance (arm : Armature) (a b : String) : Decidable (parentAdj arm a b) :=
  List.decidableBEx _ arm.bones

theorem childrenInSelection_sound {arm : Armature} {selected : List String}
    {current child : Bone} (h : child ∈ childrenInSelection arm selected current) :
    child ∈ arm.bones ∧ child.parent = some current.name ∧ child.name ∈ selected := by
  have h' := List.mem_filter.mp h
  refine ⟨h'.1, ?_, ?_⟩
  · have := of_decide_eq_true h'.2
    exact this.1
  · have := of_decide_eq_true h'.2
    exact this.2

/-- Invariant of the linear descent: as long as the walk has not branched,
every accumulated name is selected, consecutive names are parent and child,
and the head of the chain stays put. -/
theorem build_chain_from_top_inv {arm : Armature} {selected : List String}
    {top : Bone} :
    ∀ {fuel : Nat} {current : Bone} {chain c : List String} {bp : Option String},
      (∀ n ∈ chain, n ∈ selected) →
      List.Chain' (parentAdj arm) chain →
      (∀ l, chain.getLast? = some l → current ∈ arm.bones ∧ current.parent = some l) →
      build_chain_from_top arm selected top fuel current chain = some (c, true, bp) →
      (∀ n ∈ c, n ∈ selected) ∧ List.Chain' (parentAdj arm) c ∧
        (chain = [] → (c = [] ∨ c.head? = some current.name)) ∧
        (chain ≠ [] → c.head? = chain.head?) ∧
        (current.name ∈ selected → c ≠ []) := by
  intro fuel
  induction fuel with
  | zero =>
    intro current chain c bp _ _ _ h
    exact absurd h (by simp [build_chain_from_top])
  | succ fuel ih =>
    intro current chain c bp hmem hadj hlink h
    simp only [build_chain_from_top] at h
    by_cases hsel : current.name ∈ selected
    · rw [if_pos hsel] at h
      have hchainAdj : List.Chain' (parentAdj arm) (chain ++ [current.name]) := by
        rw [List.chain'_append]
        refine ⟨hadj, List.chain'_singleton _, ?_⟩
        intro x hx y hy
        have hxy : current.name = y := by simpa using hy
        obtain ⟨hcur, hpar⟩ := hlink x hx
        exact hxy ▸ ⟨current, hcur, rfl, hpar⟩
      have hchainMem : ∀ n ∈ chain ++ [current.name], n ∈ selected := by
        intro n hn
        rcases List.mem_append.mp hn with hn | hn
        · exact hmem n hn
        · have : n = current.name := by simpa using hn
          exact this ▸ hsel
      cases hch : childrenInSelection arm selected current with
      | nil =>
        rw [hch] at h
        have hc : chain ++ [current.name] = c := congrArg Prod.fst (Option.some.inj h)
        subst hc
        refine ⟨hchainMem, hchainAdj, ?_, ?_, ?_⟩
        · intro hnil
          subst hnil
          exact Or.inr (by simp)
        · intro hnnil
          exact List.head?_append_of_ne_nil _ hnnil
        · intro _
          simp
      | cons child rest =>
        cases rest with
        | nil =>
          rw [hch] at h
          have hchild : child ∈ childrenInSelection arm selected current := by
            rw [hch]; exact List.mem_singleton_self _
          obtain ⟨hcb, hcp, hcs⟩ := childrenInSelection_sound hchild
          have hres := @ih child (chain ++ [current.name]) c bp
            hchainMem hchainAdj
            (by
              intro l hl
              have : l = current.name := by
                rw [List.getLast?_concat] at hl
                exact (Option.some.inj hl).symm
              exact this ▸ ⟨hcb, hcp⟩)
            h
          obtain ⟨h1, h2, _h3, h4, h5⟩ := hres
          refine ⟨h1, h2, ?_, ?_, fun _ => h5 hcs⟩
          · intro hnil
            subst hnil
            refine Or.inr ?_
            have := h4 (by simp)
            simp at this
            exact this
          · intro hnnil
            have := h4 (by simp)
            rw [this, List.head?_append_of_ne_nil _ hnnil]
        | cons c2 rest2 =>
          rw [hch] at h
          cases hbfs : build_chain_bfs arm selected fuel [top] [] with
          | none => rw [hbfs] at h; exact absurd h (by simp)
          | some bfs =>
            rw [hbfs] at h
            have := Option.some.inj h
            have hfalse : false = true := by
              have h21 := congrArg (fun p => p.2.1) this
              simp at h21
            exact absurd hfalse (by simp)
    · rw [if_neg hsel] at h
      have hc : chain = c := congrArg Prod.fst (Option.some.inj h)
      subst hc
      exact ⟨hmem, hadj, fun hnil => Or.inl hnil, fun _ => rfl,
        fun hfalse => absurd hfalse hsel⟩

/-- C10: whenever the builder reports `is_linear = true`, every chain entry is
selected, the chain starts at the topmost bone's name (when that bone is
selected) and consecutive entries are in strict parent–child adjacency;
the breadth-first fallback (`is_linear = false`) gives no such adjacency, as
the branch skeleton `A → {B, C}` shows. -/
theorem build_chain_from_top_linear (arm : Armature) (selected : List String)
    (top : Bone) (fuel : Nat) (c : List String) (bp : Option String)
    (h : build_chain_from_top arm selected top fuel top [] = some (c, true, bp)) :
    ((∀ n ∈ c, n ∈ selected) ∧
     (top.name ∈ selected → c.head? = some top.name) ∧
     List.Chain' (parentAdj arm) c) ∧
    (build_chain_from_top branchArm ["A", "B", "C"] ⟨"A", none⟩ 5 ⟨"A", none⟩ [] =
        some (["A", "B", "C"], false, some "A") ∧
     ¬ List.Chain' (parentAdj branchArm) ["A", "B", "C"]) := by
  have hinv := @build_chain_from_top_inv arm selected top fuel top [] c bp
    (by simp) List.chain'_nil (by simp) h
  obtain ⟨h1, h2, h3, _h4, h5⟩ := hinv
  refine ⟨⟨h1, ?_, h2⟩, by decide, ?_⟩
  · intro hsel
    rcases h3 rfl with hnil | hhead
    · exact absurd hnil (h5 hsel)
    · exact hhead
  · intro hch
    have hbc := (List.chain'_cons.mp (List.chain'_cons.mp hch).2).1
    exact absurd hbc (by decide)

/-- C10 witness: the fully selected spine chain builds linearly and satisfies
the three invariants. -/
theorem build_chain_from_top_linear_witness :
    build_chain_from_top spineArm ["spine", "spine.001", "spine.002"]
        ⟨"spine", none⟩ 5 ⟨"spine", none⟩ [] =
      some (["spine", "spine.001", "spine.002"], true, none) ∧
    ((∀ n ∈ ["spine", "spine.001", "spine.002"],
        n ∈ ["spine", "spine.001", "spine.002"]) ∧
     ((Bone.mk "spine" none).name ∈ ["spine", "spine.001", "spine.002"] →
        (["spine", "spine.001", "spine.002"] : List String).head? = some "spine") ∧
     List.Chain' (parentAdj spineArm) ["spine", "spine.001", "spine.002"]) := by
  have hrun : build_chain_from_top spineArm ["spine", "spine.001", "spine.002"]
      ⟨"spine", none⟩ 5 ⟨"spine", none⟩ [] =
      some (["spine", "spine.001", "spine.002"], true, none) := by decide
  have h := build_chain_from_top_linear spineArm ["spine", "spine.001", "spine.002"]
    ⟨"spine", none⟩ 5 ["spine", "spine.001", "spine.002"] none hrun
  exact ⟨hrun, h.1⟩

/-! ## C5, C6: the side filter -/

/-- A kept bone is exactly a non-mirrored bone: the keep test is the negation
of the mirrored-pair test. -/
theorem keepBone_eq_not_isMirrored (fp : String × String) (bn : String) :
    keepBone fp bn = !(isMirrored fp bn) := by
  unfold keepBone isMirrored
  by_cases h1 : (parseBoneSide bn).1 = fp.1 <;>
    by_cases h2 : (parseBoneSide bn).2 = "" <;>
      by_cases h3 : (parseBoneSide bn).2 = fp.2 <;> simp [h1, h2, h3]

/-- The first bone always passes the keep test: its side is its own side. -/
theorem keepBone_first (first : String) :
    keepBone (parseBoneSide first) first = true := by
  unfold keepBone
  simp

/-- C5: `filter_bones_by_side` is idempotent. -/
theorem filter_bones_by_side_idempotent (xs : List String) :
    filter_bones_by_side (filter_bones_by_side xs) = filter_bones_by_side xs := by
  by_cases hlen : xs.length < 2
  · have hxs : filter_bones_by_side xs = xs := by
      unfold filter_bones_by_side
      rw [if_pos hlen]
    rw [hxs, hxs]
  · cases xs with
    | nil => exact absurd (by simp) hlen
    | cons first rest =>
      by_cases hside : (parseBoneSide first).2 = ""
      · have hxs : filter_bones_by_side (first :: rest) = first :: rest := by
          simp [filter_bones_by_side, hlen, hside]
        rw [hxs, hxs]
      · by_cases hmir : (rest.any (isMirrored (parseBoneSide first))) = false
        · have hxs : filter_bones_by_side (first :: rest) = first :: rest := by
            simp [filter_bones_by_side, hlen, hside, hmir]
          rw [hxs, hxs]
        · have hmirT : (rest.any (isMirrored (parseBoneSide first))) = true := by
            simpa using hmir
          have hfiltered : (first :: rest).filter (keepBone (parseBoneSide first)) =
              first :: rest.filter (keepBone (parseBoneSide first)) :=
            List.filter_cons_of_pos (keepBone_first first)
          have hlen' : ¬ (rest.length + 1 < 2) := by simpa using hlen
          have hxs : filter_bones_by_side (first :: rest) =
              first :: rest.filter (keepBone (parseBoneSide first)) := by
            simp [filter_bones_by_side, hlen', hside, hmirT, hfiltered]
          rw [hxs]
          by_cases hlen2 : (first :: rest.filter (keepBone (parseBoneSide first))).length < 2
          · unfold filter_bones_by_side
            rw [if_pos hlen2]
          · have hlen2' : ¬ ((rest.filter (keepBone (parseBoneSide first))).length + 1 < 2) := by
              simpa using hlen2
            have hnomir : ((rest.filter (keepBone (parseBoneSide first))).any
                (isMirrored (parseBoneSide first))) = false := by
              rw [List.any_eq_false]
              intro x hx
              have hkeep := (List.mem_filter.mp hx).2
              rw [keepBone_eq_not_isMirrored] at hkeep
              simp at hkeep
              simp [hkeep]
            simp [filter_bones_by_side, hlen2', hside, hnomir]

/-- C6: the filter never empties a non-empty selection — every fallthrough
branch returns the input, and the filtered list is guarded by an emptiness
check that falls back to the input. -/
theorem filter_bones_by_side_nonempty (xs : List String) (h : xs ≠ []) :
    filter_bones_by_side xs ≠ [] := by
  unfold filter_bones_by_side
  split
  · exact h
  · split
    · exact h
    · split
      · simp
      · split
        · simp
        · dsimp only
          split
          · simp
          · assumption

/-! ## C7: side parsing of dot-suffixed names -/

/-- Dropping while not-dot runs through a dot-free block and stops at the
first dot. -/
theorem dropWhile_ne_dot (l rest : List Char) (h : '.' ∉ l) :
    (l ++ '.' :: rest).dropWhile (fun c => c ≠ '.') = '.' :: rest := by
  induction l with
  | nil =>
    rw [List.nil_append, List.dropWhile_cons, if_neg (by simp)]
  | cons a l ih =>
    have ha : a ≠ '.' := fun hh => h (hh ▸ List.mem_cons_self a l)
    have hl : '.' ∉ l := fun hm => h (List.mem_cons_of_mem a hm)
    rw [List.cons_append, List.dropWhile_cons, if_pos (by simp [ha])]
    exact ih hl

/-- Stripping the duplicate suffix of `base ++ "." ++ c ++ "." ++ dup`
(with a dot-free `dup`) leaves `base ++ "." ++ c`. -/
theorem stripDup_dot_side (name : String) (base dup : List Char) (c : Char)
    (hdata : name.data = base ++ '.' :: c :: '.' :: dup) (hdup : '.' ∉ dup) :
    stripDup name = String.mk (base ++ ['.', c]) := by
  have hdot : '.' ∈ name.data := by rw [hdata]; simp
  unfold stripDup
  rw [if_pos hdot, hdata]
  rw [show (base ++ '.' :: c :: '.' :: dup).reverse =
      dup.reverse ++ '.' :: (c :: '.' :: base.reverse) from by simp]
  rw [dropWhile_ne_dot _ _ (by simpa using hdup)]
  simp

/-- C7 (amended): a name of the form `base.L`/`base.R` (any case) *followed by
a duplicate-disambiguation suffix* parses to the lowercased base with side `L`
resp. `R`; without that trailing suffix the side component itself is stripped
as the duplicate suffix (see the counterexample).  Names matching none of the
three patterns after stripping yield an empty side. -/
theorem parseBoneSide_dot_requires_dup_suffix :
    (∀ (name : String) (base dup : List Char) (c : Char),
      name.data = base ++ '.' :: c :: '.' :: dup →
      base ≠ [] → '\n' ∉ base → '.' ∉ dup →
      ((c = 'L' ∨ c = 'l') →
        parseBoneSide name = (String.mk (base.map Char.toLower), "L")) ∧
      ((c = 'R' ∨ c = 'r') →
        parseBoneSide name = (String.mk (base.map Char.toLower), "R"))) ∧
    (∀ name : String,
      matchDotLR (stripDup name).data = none →
      matchUnderscoreLR (stripDup name).data = none →
      matchUnderscoreWord (stripDup name).data = none →
      (parseBoneSide name).2 = "") := by
  constructor
  · intro name base dup c hdata hbase hnl hdup
    have hstrip := stripDup_dot_side name base dup c hdata hdup
    have hrevne : base.reverse ≠ [] := by simpa using hbase
    have hrevnl : '\n' ∉ base.reverse := by simpa using hnl
    have hmatch : ∀ hc : c = 'L' ∨ c = 'l' ∨ c = 'R' ∨ c = 'r',
        matchDotLR (stripDup name).data = some (base, [c]) := by
      intro hc
      rw [hstrip]
      show matchDotLR (base ++ ['.', c]) = some (base, [c])
      unfold matchDotLR
      rw [show (base ++ ['.', c]).reverse = c :: '.' :: base.reverse from by simp]
      show (if ('.' : Char) = '.' ∧ (c = 'L' ∨ c = 'l' ∨ c = 'R' ∨ c = 'r') ∧
          base.reverse ≠ [] ∧ '\n' ∉ base.reverse then
          some (base.reverse.reverse, [c]) else none) = some (base, [c])
      rw [if_pos ⟨rfl, hc, hrevne, hrevnl⟩]
      simp
    constructor
    · intro hcl
      have hm := hmatch (by tauto)
      have hps : parseBoneSide name =
          (String.mk (base.map Char.toLower), String.mk ([c].map Char.toUpper)) := by
        simp [parseBoneSide, hm]
      rw [hps]
      have hside : String.mk ([c].map Char.toUpper) = "L" := by
        rcases hcl with h | h <;> subst h <;> decide
      rw [hside]
    · intro hcr
      have hm := hmatch (by tauto)
      have hps : parseBoneSide name =
          (String.mk (base.map Char.toLower), String.mk ([c].map Char.toUpper)) := by
        simp [parseBoneSide, hm]
      rw [hps]
      have hside : String.mk ([c].map Char.toUpper) = "R" := by
        rcases hcr with h | h <;> subst h <;> decide
      rw [hside]
  · intro name h1 h2 h3
    simp [parseBoneSide, h1, h2, h3]

/-- C7 counterexample: `"tail.L"` — the dot form *without* a duplicate
suffix — loses its side: the final `.L` is itself consumed as a duplicate
suffix, so the parser yields `("tail", "")`, not the claimed `("tail", "L")`. -/
theorem parseBoneSide_dot_no_dup_counterexample :
    parseBoneSide "tail.L" = ("tail", "") ∧
    parseBoneSide "tail.L" ≠ ("tail", "L") := by decide

/-- C7 witness: `"Tail.L.001"` parses to `("tail", "L")` (case-insensitively,
base lowercased), and a pattern-free name keeps an empty side. -/
theorem parseBoneSide_dot_requires_dup_suffix_witness :
    "Tail.L.001".data = ['T', 'a', 'i', 'l'] ++ '.' :: 'L' :: '.' :: ['0', '0', '1'] ∧
    parseBoneSide "Tail.L.001" = ("tail", "L") ∧
    (parseBoneSide "bone.001").2 = "" := by
  have h := (parseBoneSide_dot_requires_dup_suffix.1 "Tail.L.001"
    ['T', 'a', 'i', 'l'] ['0', '0', '1'] 'L'
    (by decide) (by decide) (by decide) (by decide)).1 (Or.inl rfl)
  refine ⟨by decide, ?_, parseBoneSide_dot_requires_dup_suffix.2 "bone.001"
    (by decide) (by decide) (by decide)⟩
  rw [h]
  decide

/-- C6 witness: the mirrored scenario selection filters to a non-empty list. -/
theorem filter_bones_by_side_nonempty_witness :
    (["tail_L", "tail_L.001", "tail_R", "tail_R.001"] : List String) ≠ [] ∧
    filter_bones_by_side ["tail_L", "tail_L.001", "tail_R", "tail_R.001"] ≠ [] :=
  ⟨by decide,
   filter_bones_by_side_nonempty ["tail_L", "tail_L.001", "tail_R", "tail_R.001"]
     (by decide)⟩

/-! ## C8: a malformed import leaves the configuration untouched -/

/-- C8: called on a dictionary whose `chains` entry is missing, is not a
list, or contains a non-dictionary element, the import returns `False`
without touching the object: no chain is cleared, added or modified. -/
theorem import_jiggle_config_bad_chains_untouched
    (obj : Option Object) (kvs : List (String × JValue))
    (hbad : dictGet kvs "chains" = none ∨
      (∃ v, dictGet kvs "chains" = some v ∧ ∀ xs, v ≠ JValue.jlist xs) ∨
      (∃ xs, dictGet kvs "chains" = some (JValue.jlist xs) ∧
        xs.all JValue.isDict = false)) :
    import_jiggle_config_from_dict obj (JValue.jdict kvs) = (false, obj) := by
  cases obj with
  | none => rfl
  | some o =>
    cases hcfg : get_jiggle_config (some o) with
    | none => simp only [import_jiggle_config_from_dict, hcfg]
    | some cfg =>
      rcases hbad with h | ⟨v, hv, hnl⟩ | ⟨xs, hx, hall⟩
      · simp only [import_jiggle_config_from_dict, hcfg, h]
      · cases v with
        | jlist xs => exact absurd rfl (hnl xs)
        | jnull => simp only [import_jiggle_config_from_dict, hcfg, hv]
        | jbool b => simp only [import_jiggle_config_from_dict, hcfg, hv]
        | jnum q => simp only [import_jiggle_config_from_dict, hcfg, hv]
        | jstr s => simp only [import_jiggle_config_from_dict, hcfg, hv]
        | jdict entries => simp only [import_jiggle_config_from_dict, hcfg, hv]
      · simp [import_jiggle_config_from_dict, hcfg, hx, hall]

/-- An armature object carrying one configured chain, for the import tests. -/
def configuredObj : Object :=
  { type := "ARMATURE"
    data := some spineArm
    jiggle_config := some ⟨[⟨"a", "b", 1, 1, 1, 1, false⟩], 0⟩
    custom_props := [] }

/-- C8 witness: importing `{}` (no `chains` key) into an object carrying one
configured chain fails and returns the object unchanged. -/
theorem import_jiggle_config_bad_chains_untouched_witness :
    dictGet ([] : List (String × JValue)) "chains" = none ∧
    import_jiggle_config_from_dict (some configuredObj) (JValue.jdict []) =
      (false, some configuredObj) :=
  ⟨rfl, import_jiggle_config_bad_chains_untouched (some configuredObj) [] (Or.inl rfl)⟩

/-! ## C2: the validation ladder -/

/-- `obj and obj.type == "ARMATURE"`: the object is a skeleton-bearing
entity. -/
def isArmatureObject (obj : Option Object) : Bool :=
  match obj with
  | some o => decide (o.type = "ARMATURE")
  | none => false

/-- The bone names visible to the validator. -/
def boneNamesOf (obj : Option Object) : List String :=
  match obj with
  | some o => o.armNames
  | none => []

/-- Ordered checks, first failure wins. -/
def firstFailure : List (Bool × String) → Bool × String
  | [] => (true, "")
  | (ok, msg) :: rest => if ok then firstFailure rest else (false, msg)

/-- The validator's checks as the spec words them (section 4.2): object must
be a skeleton-bearing entity; start name non-empty; end name non-empty; start
exists in skeleton; end exists in skeleton; the resolver produces a non-empty
chain — each with its parameterized message. -/
def validateSpecChecks (obj : Option Object) (s e : String) : List (Bool × String) :=
  [ (isArmatureObject obj, ERROR_NOT_ARMATURE),
    (decide (s ≠ ""), ERROR_START_BONE_EMPTY),
    (decide (e ≠ ""), ERROR_END_BONE_EMPTY),
    (decide (s ∈ boneNamesOf obj), ERROR_START_BONE_NOT_FOUND s),
    (decide (e ∈ boneNamesOf obj), ERROR_END_BONE_NOT_FOUND e),
    (decide (get_bones_in_chain obj s e ≠ []), ERROR_INVALID_CHAIN s e) ]

/-- The spec's reading of the validator: run the six checks in order, first
failure wins, success is `(true, "")`. -/
def validateSpec (obj : Option Object) (s e : String) : Bool × String :=
  firstFailure (validateSpecChecks obj s e)

/-- Two strings differing at some position differ. -/
theorem strNe_of_getElem {s t : String} (i : Nat)
    (h : s.data[i]? ≠ t.data[i]?) : s ≠ t :=
  fun he => h (by rw [he])

theorem ERROR_START_BONE_NOT_FOUND_data (b : String) (i : Nat)
    (hi : i < 12) :
    (ERROR_START_BONE_NOT_FOUND b).data[i]? = "Start bone '".data[i]? := by
  unfold ERROR_START_BONE_NOT_FOUND
  show (("Start bone '".data ++ b.data) ++ "' not found in armature".data)[i]? = _
  rw [List.getElem?_append_left (by simp; omega), List.getElem?_append_left (by simpa using hi)]

theorem ERROR_END_BONE_NOT_FOUND_data (b : String) (i : Nat)
    (hi : i < 10) :
    (ERROR_END_BONE_NOT_FOUND b).data[i]? = "End bone '".data[i]? := by
  unfold ERROR_END_BONE_NOT_FOUND
  show (("End bone '".data ++ b.data) ++ "' not found in armature".data)[i]? = _
  rw [List.getElem?_append_left (by simp; omega), List.getElem?_append_left (by simpa using hi)]

theorem ERROR_INVALID_CHAIN_data (s e : String) (i : Nat) (hi : i < 24) :
    (ERROR_INVALID_CHAIN s e).data[i]? = "Cannot find chain from '".data[i]? := by
  unfold ERROR_INVALID_CHAIN
  show (((("Cannot find chain from '".data ++ s.data) ++ "' to '".data) ++ e.data)
      ++ "'".data)[i]? = _
  rw [List.getElem?_append_left (by simp; omega), List.getElem?_append_left (by simp; omega),
    List.getElem?_append_left (by simp; omega), List.getElem?_append_left (by simpa using hi)]

/-- C2: `validate_jiggle_chain` is exactly the spec's ordered six-check
ladder with first failure winning; it returns `(true, "")` precisely when all
six checks pass; and the six failure messages are pairwise distinct for all
bone-name parameters. -/
theorem validate_jiggle_chain_checks (obj : Option Object) (s e : String) :
    validate_jiggle_chain obj s e = validateSpec obj s e ∧
    (validate_jiggle_chain obj s e = (true, "") ↔
      (isArmatureObject obj = true ∧ s ≠ "" ∧ e ≠ "" ∧ s ∈ boneNamesOf obj ∧
        e ∈ boneNamesOf obj ∧ get_bones_in_chain obj s e ≠ [])) ∧
    List.Pairwise (fun a b => a ≠ b)
      [ERROR_NOT_ARMATURE, ERROR_START_BONE_EMPTY, ERROR_END_BONE_EMPTY,
       ERROR_START_BONE_NOT_FOUND s, ERROR_END_BONE_NOT_FOUND e,
       ERROR_INVALID_CHAIN s e] := by
  have h4c : ∀ i, i < 12 → ∀ c, "Start bone '".data[i]? = some c →
      (ERROR_START_BONE_NOT_FOUND s).data[i]? = some c := by
    intro i hi c hc
    rw [ERROR_START_BONE_NOT_FOUND_data s i hi, hc]
  have h5c : ∀ i, i < 10 → ∀ c, "End bone '".data[i]? = some c →
      (ERROR_END_BONE_NOT_FOUND e).data[i]? = some c := by
    intro i hi c hc
    rw [ERROR_END_BONE_NOT_FOUND_data e i hi, hc]
  have h6c : (ERROR_INVALID_CHAIN s e).data[0]? = some 'C' := by
    rw [ERROR_INVALID_CHAIN_data s e 0 (by omega)]
    decide
  have h40 : (ERROR_START_BONE_NOT_FOUND s).data[0]? = some 'S' :=
    h4c 0 (by omega) 'S' (by decide)
  have h411 : (ERROR_START_BONE_NOT_FOUND s).data[11]? = some '\'' :=
    h4c 11 (by omega) '\'' (by decide)
  have h50 : (ERROR_END_BONE_NOT_FOUND e).data[0]? = some 'E' :=
    h5c 0 (by omega) 'E' (by decide)
  have h59 : (ERROR_END_BONE_NOT_FOUND e).data[9]? = some '\'' :=
    h5c 9 (by omega) '\'' (by decide)
  have n12 : ERROR_NOT_ARMATURE ≠ ERROR_START_BONE_EMPTY := by decide
  have n13 : ERROR_NOT_ARMATURE ≠ ERROR_END_BONE_EMPTY := by decide
  have n14 : ERROR_NOT_ARMATURE ≠ ERROR_START_BONE_NOT_FOUND s :=
    strNe_of_getElem 0 (by rw [h40]; decide)
  have n15 : ERROR_NOT_ARMATURE ≠ ERROR_END_BONE_NOT_FOUND e :=
    strNe_of_getElem 0 (by rw [h50]; decide)
  have n16 : ERROR_NOT_ARMATURE ≠ ERROR_INVALID_CHAIN s e :=
    strNe_of_getElem 0 (by rw [h6c]; decide)
  have n23 : ERROR_START_BONE_EMPTY ≠ ERROR_END_BONE_EMPTY := by decide
  have n24 : ERROR_START_BONE_EMPTY ≠ ERROR_START_BONE_NOT_FOUND s :=
    strNe_of_getElem 11 (by rw [h411]; decide)
  have n25 : ERROR_START_BONE_EMPTY ≠ ERROR_END_BONE_NOT_FOUND e :=
    strNe_of_getElem 0 (by rw [h50]; decide)
  have n26 : ERROR_START_BONE_EMPTY ≠ ERROR_INVALID_CHAIN s e :=
    strNe_of_getElem 0 (by rw [h6c]; decide)
  have n34 : ERROR_END_BONE_EMPTY ≠ ERROR_START_BONE_NOT_FOUND s :=
    strNe_of_getElem 0 (by rw [h40]; decide)
  have n35 : ERROR_END_BONE_EMPTY ≠ ERROR_END_BONE_NOT_FOUND e :=
    strNe_of_getElem 9 (by rw [h59]; decide)
  have n36 : ERROR_END_BONE_EMPTY ≠ ERROR_INVALID_CHAIN s e :=
    strNe_of_getElem 0 (by rw [h6c]; decide)
  have n45 : ERROR_START_BONE_NOT_FOUND s ≠ ERROR_END_BONE_NOT_FOUND e :=
    strNe_of_getElem 0 (by rw [h40, h50]; decide)
  have n46 : ERROR_START_BONE_NOT_FOUND s ≠ ERROR_INVALID_CHAIN s e :=
    strNe_of_getElem 0 (by rw [h40, h6c]; decide)
  have n56 : ERROR_END_BONE_NOT_FOUND e ≠ ERROR_INVALID_CHAIN s e :=
    strNe_of_getElem 0 (by rw [h50, h6c]; decide)
  have hpair : List.Pairwise (fun a b => a ≠ b)
      [ERROR_NOT_ARMATURE, ERROR_START_BONE_EMPTY, ERROR_END_BONE_EMPTY,
       ERROR_START_BONE_NOT_FOUND s, ERROR_END_BONE_NOT_FOUND e,
       ERROR_INVALID_CHAIN s e] := by
    refine List.Pairwise.cons ?_ (List.Pairwise.cons ?_ (List.Pairwise.cons ?_
      (List.Pairwise.cons ?_ (List.Pairwise.cons ?_ (List.pairwise_singleton _ _)))))
    · intro y hy
      simp only [List.mem_cons, List.not_mem_nil, or_false] at hy
      rcases hy with rfl | rfl | rfl | rfl | rfl
      · exact n12
      · exact n13
      · exact n14
      · exact n15
      · exact n16
    · intro y hy
      simp only [List.mem_cons, List.not_mem_nil, or_false] at hy
      rcases hy with rfl | rfl | rfl | rfl
      · exact n23
      · exact n24
      · exact n25
      · exact n26
    · intro y hy
      simp only [List.mem_cons, List.not_mem_nil, or_false] at hy
      rcases hy with rfl | rfl | rfl
      · exact n34
      · exact n35
      · exact n36
    · intro y hy
      simp only [List.mem_cons, List.not_mem_nil, or_false] at hy
      rcases hy with rfl | rfl
      · exact n45
      · exact n46
    · intro y hy
      simp only [List.mem_cons, List.not_mem_nil, or_false] at hy
      rcases hy with rfl
      exact n56
  refine ⟨?_, ?_, hpair⟩ <;> clear hpair
  all_goals
    cases obj with
    | none =>
      simp [validate_jiggle_chain, validateSpec, validateSpecChecks, firstFailure,
        isArmatureObject, boneNamesOf]
    | some o =>
      by_cases h1 : o.type = "ARMATURE"
      · by_cases h2 : s = ""
        · simp [validate_jiggle_chain, validateSpec, validateSpecChecks, firstFailure,
            isArmatureObject, boneNamesOf, h1, h2]
        · by_cases h3 : e = ""
          · simp [validate_jiggle_chain, validateSpec, validateSpecChecks, firstFailure,
              isArmatureObject, boneNamesOf, h1, h2, h3]
          · by_cases h4 : s ∈ o.armNames
            · by_cases h5 : e ∈ o.armNames
              · by_cases h6 : get_bones_in_chain (some o) s e = []
                · simp [validate_jiggle_chain, validateSpec, validateSpecChecks,
                    firstFailure, isArmatureObject, boneNamesOf, h1, h2, h3, h4, h5, h6]
                · simp [validate_jiggle_chain, validateSpec, validateSpecChecks,
                    firstFailure, isArmatureObject, boneNamesOf, h1, h2, h3, h4, h5, h6]
              · simp [validate_jiggle_chain, validateSpec, validateSpecChecks,
                  firstFailure, isArmatureObject, boneNamesOf, h1, h2, h3, h4, h5]
            · simp [validate_jiggle_chain, validateSpec, validateSpecChecks,
                firstFailure, isArmatureObject, boneNamesOf, h1, h2, h3, h4]
      · simp [validate_jiggle_chain, validateSpec, validateSpecChecks, firstFailure,
          isArmatureObject, boneNamesOf, h1]

end Metamagic
